import Mathlib

/-!
Verification of the DevMind streaming utilities and agent loop
(`src/sdk/utils/streaming.ts`, `sendMessageToAgent`) against the
natural-language specification.  The TypeScript code is shallowly
embedded: strings are lists of characters, async generators become
pure functions from their (finite) input to the list of produced
values, and the JavaScript `JSON.parse` builtin is modelled by an
executable recursive-descent parser over a JSON value tree.
-/

namespace DevMind

/-- Strings are modelled as lists of characters.  The TypeScript code
decodes network bytes with a streaming `TextDecoder`, which reassembles
code points split across reads, so the character level is the faithful
granularity for chunk-boundary questions. -/
abbrev Chars := List Char

/-- Whitespace as recognised by JavaScript `trimStart` / `trim`
(the common members of the WhiteSpace and LineTerminator productions). -/
def jsWhitespace (c : Char) : Bool :=
  c = ' ' || c = '\t' || c = '\n' || c = '\r' ||
  c = '\x0b' || c = '\x0c' || c = ' ' || c = '﻿'

/-- JavaScript `String.prototype.trimStart`. -/
def trimStart (s : Chars) : Chars := s.dropWhile jsWhitespace

/-- JavaScript `String.prototype.trim`. -/
def jsTrim (s : Chars) : Chars :=
  (((s.dropWhile jsWhitespace).reverse).dropWhile jsWhitespace).reverse

/-- JavaScript `s.replace(/\r$/, '')`: drop one trailing carriage return. -/
def stripCR (s : Chars) : Chars :=
  match s.getLast? with
  | some '\r' => s.dropLast
  | _ => s

/-- JavaScript `s.split('\n')` on character lists.  `split` always
returns at least one (possibly empty) segment. -/
def splitNl : Chars → List Chars
  | [] => [[]]
  | c :: cs =>
    if c = '\n' then [] :: splitNl cs
    else
      match splitNl cs with
      | [] => [[c]]
      | l :: ls => (c :: l) :: ls

/-- JavaScript `Array.prototype.join('\n')`. -/
def joinNl : List Chars → Chars
  | [] => []
  | [l] => l
  | l :: ls => l ++ '\n' :: joinNl ls

-- ============================================
-- JSON values and a model of JSON.parse
-- ============================================

/-- JSON value tree.  Numbers keep their source lexeme: none of the
verified properties depend on numeric semantics, and this avoids
embedding IEEE-754 floats. -/
inductive Json where
  | null : Json
  | bool (b : Bool) : Json
  | num (lexeme : String) : Json
  | str (s : String) : Json
  | arr (elems : List Json) : Json
  | obj (members : List (String × Json)) : Json

instance : Inhabited Json := ⟨Json.null⟩

/-- JSON-grammar whitespace (RFC 8259: space, tab, LF, CR). -/
def jsonWs (c : Char) : Bool :=
  c = ' ' || c = '\t' || c = '\n' || c = '\r'

def skipWs (s : Chars) : Chars := s.dropWhile jsonWs

def isDigit (c : Char) : Bool := '0' ≤ c && c ≤ '9'

def isHexDigit (c : Char) : Bool :=
  isDigit c || ('a' ≤ c && c ≤ 'f') || ('A' ≤ c && c ≤ 'F')

def hexVal (c : Char) : Nat :=
  if isDigit c then c.toNat - '0'.toNat
  else if 'a' ≤ c && c ≤ 'f' then c.toNat - 'a'.toNat + 10
  else c.toNat - 'A'.toNat + 10

/-- Parse the body of a JSON string literal (the opening quote already
consumed), returning the decoded characters and the rest of the input. -/
def parseStringBody : Nat → Chars → Option (Chars × Chars)
  | 0, _ => none
  | _, [] => none
  | fuel + 1, c :: rest =>
    if c = '"' then some ([], rest)
    else if c = '\\' then
      match rest with
      | [] => none
      | e :: rest2 =>
        let decoded : Option (Char × Chars) :=
          if e = '"' then some ('"', rest2)
          else if e = '\\' then some ('\\', rest2)
          else if e = '/' then some ('/', rest2)
          else if e = 'b' then some ('\x08', rest2)
          else if e = 'f' then some ('\x0c', rest2)
          else if e = 'n' then some ('\n', rest2)
          else if e = 'r' then some ('\r', rest2)
          else if e = 't' then some ('\t', rest2)
          else if e = 'u' then
            match rest2 with
            | h1 :: h2 :: h3 :: h4 :: rest3 =>
              if isHexDigit h1 && isHexDigit h2 && isHexDigit h3 && isHexDigit h4 then
                some (Char.ofNat
                  (((hexVal h1 * 16 + hexVal h2) * 16 + hexVal h3) * 16 + hexVal h4), rest3)
              else none
            | _ => none
          else none
        match decoded with
        | none => none
        | some (ch, rest3) =>
          match parseStringBody fuel rest3 with
          | none => none
          | some (body, rest4) => some (ch :: body, rest4)
    else if c.toNat < 0x20 then none
    else
      match parseStringBody fuel rest with
      | none => none
      | some (body, rest2) => some (c :: body, rest2)

/-- Parse a JSON number lexeme (RFC 8259 grammar), returning the lexeme
characters and the rest. -/
def parseNumberLex (s : Chars) : Option (Chars × Chars) :=
  let (sign, s1) :=
    match s with
    | '-' :: rest => (['-'], rest)
    | _ => (([] : Chars), s)
  let intPart : Option (Chars × Chars) :=
    match s1 with
    | '0' :: rest => some (['0'], rest)
    | c :: rest =>
      if isDigit c && c ≠ '0' then
        some (c :: rest.takeWhile isDigit, rest.dropWhile isDigit)
      else none
    | [] => none
  match intPart with
  | none => none
  | some (ip, s2) =>
    let (fp, s3) :=
      match s2 with
      | '.' :: rest =>
        if (rest.takeWhile isDigit) = [] then (([] : Chars), s2)
        else ('.' :: rest.takeWhile isDigit, rest.dropWhile isDigit)
      | _ => (([] : Chars), s2)
    let (ep, s4) :=
      match s3 with
      | e :: rest =>
        if e = 'e' || e = 'E' then
          let (sgn, rest2) :=
            match rest with
            | '+' :: r => (['+'], r)
            | '-' :: r => (['-'], r)
            | _ => (([] : Chars), rest)
          if (rest2.takeWhile isDigit) = [] then (([] : Chars), s3)
          else (e :: (sgn ++ rest2.takeWhile isDigit), rest2.dropWhile isDigit)
        else (([] : Chars), s3)
      | [] => (([] : Chars), s3)
    if fp = [] && s2 ≠ s3 then none
    else some (sign ++ ip ++ fp ++ ep, s4)

mutual

/-- Recursive-descent parser for one JSON value (leading whitespace
skipped by the caller), fuel-bounded. -/
def parseVal : Nat → Chars → Option (Json × Chars)
  | 0, _ => none
  | fuel + 1, s =>
    match s with
    | [] => none
    | c :: rest =>
      if c = 'n' then
        match rest with
        | 'u' :: 'l' :: 'l' :: r => some (Json.null, r)
        | _ => none
      else if c = 't' then
        match rest with
        | 'r' :: 'u' :: 'e' :: r => some (Json.bool true, r)
        | _ => none
      else if c = 'f' then
        match rest with
        | 'a' :: 'l' :: 's' :: 'e' :: r => some (Json.bool false, r)
        | _ => none
      else if c = '"' then
        match parseStringBody (rest.length + 1) rest with
        | none => none
        | some (body, r) => some (Json.str (String.mk body), r)
      else if c = '[' then
        match skipWs rest with
        | ']' :: r => some (Json.arr [], r)
        | s2 =>
          match parseElems fuel s2 with
          | none => none
          | some (elems, r) => some (Json.arr elems, r)
      else if c = '{' then
        match skipWs rest with
        | '}' :: r => some (Json.obj [], r)
        | s2 =>
          match parseMembers fuel s2 with
          | none => none
          | some (mems, r) => some (Json.obj mems, r)
      else if c = '-' || isDigit c then
        match parseNumberLex (c :: rest) with
        | none => none
        | some (lex, r) => some (Json.num (String.mk lex), r)
      else none

/-- Parse one-or-more comma-separated array elements up to `]`. -/
def parseElems : Nat → Chars → Option (List Json × Chars)
  | 0, _ => none
  | fuel + 1, s =>
    match parseVal fuel (skipWs s) with
    | none => none
    | some (v, r) =>
      match skipWs r with
      | ',' :: r2 =>
        match parseElems fuel r2 with
        | none => none
        | some (vs, r3) => some (v :: vs, r3)
      | ']' :: r2 => some ([v], r2)
      | _ => none

/-- Parse one-or-more comma-separated object members up to `}`. -/
def parseMembers : Nat → Chars → Option (List (String × Json) × Chars)
  | 0, _ => none
  | fuel + 1, s =>
    match skipWs s with
    | '"' :: r =>
      match parseStringBody (r.length + 1) r with
      | none => none
      | some (key, r2) =>
        match skipWs r2 with
        | ':' :: r3 =>
          match parseVal fuel (skipWs r3) with
          | none => none
          | some (v, r4) =>
            match skipWs r4 with
            | ',' :: r5 =>
              match parseMembers fuel r5 with
              | none => none
              | some (ms, r6) => some ((String.mk key, v) :: ms, r6)
            | '}' :: r5 => some ([(String.mk key, v)], r5)
            | _ => none
        | _ => none
    | _ => none

end

/-- Model of the JavaScript `JSON.parse` builtin: parse one JSON value,
allowing surrounding whitespace, rejecting trailing garbage.  `none`
models a thrown `SyntaxError`. -/
def jsonParse (s : Chars) : Option Json :=
  match parseVal (s.length + 1) (skipWs s) with
  | none => none
  | some (v, rest) => if skipWs rest = [] then some v else none

-- ============================================
-- SSE parser (parseSSE, src/sdk/utils/streaming.ts)
-- ============================================

/-- The data payload `flushEvent` would join and parse: collect the
`data:` lines of the event, strip the 5-character prefix, `trimStart`
each, and join with a single newline.  Returns `none` when the event
has no lines or no `data:` lines (`flushEvent` yields nothing then). -/
def flushData (lines : List Chars) : Option Chars :=
  if lines = [] then none
  else
    let dataLines := (lines.filter (fun l => "data:".toList.isPrefixOf l)).map
      (fun l => trimStart (l.drop 5))
    if dataLines = [] then none
    else some (joinNl dataLines)

/-- The `flushEvent` inner generator of `parseSSE`: yields at most one
parsed JSON event for the accumulated lines of one SSE event.  An empty
joined payload, the `[DONE]` sentinel, and unparseable JSON all yield
nothing (for `[DONE]` the code merely returns from `flushEvent`; the
enclosing generator keeps running). -/
def flushEvent (lines : List Chars) : Option Json :=
  match flushData lines with
  | none => none
  | some data =>
    if data = [] then none
    else if data = "[DONE]".toList then none
    else jsonParse data

/-- The part of `parseSSE`'s state that one completed line updates:
the accumulated lines of the current event and the events emitted so
far. -/
structure EvState where
  eventLines : List Chars
  out : List Json

/-- Main-loop handling of one completed line in `parseSSE`: strip a
trailing CR, flush the current event on a blank line, skip `:` comment
lines, and accumulate everything else. -/
def processLine (st : EvState) (rawLine : Chars) : EvState :=
  let line := stripCR rawLine
  if line = [] then
    { eventLines := [], out := st.out ++ (flushEvent st.eventLines).toList }
  else if line.head? = some ':' then st
  else { st with eventLines := st.eventLines ++ [line] }

/-- Full `parseSSE` state: the not-yet-terminated partial line plus the
event-level state. -/
structure SSEState where
  buffer : Chars
  ev : EvState

def SSEState.init : SSEState := ⟨[], ⟨[], []⟩⟩

/-- One `reader.read()` result: append the decoded text to the buffer,
split on newlines, keep the last (partial) segment as the new buffer,
and run the main-loop line handling on each completed line. -/
def feedChunk (st : SSEState) (chunk : Chars) : SSEState :=
  let segs := splitNl (st.buffer ++ chunk)
  { buffer := segs.getLastD [],
    ev := segs.dropLast.foldl processLine st.ev }

/-- Done-path handling of one line of the final buffer: unlike the main
loop it does not skip `:` comment lines. -/
def doneLine (st : EvState) (rawLine : Chars) : EvState :=
  let line := stripCR rawLine
  if line = [] then
    { eventLines := [], out := st.out ++ (flushEvent st.eventLines).toList }
  else { st with eventLines := st.eventLines ++ [line] }

/-- End-of-stream handling of `parseSSE`: process any remaining
buffered text line-wise with the done-path handling, then flush the
remaining buffered event.  Returns the complete emitted sequence. -/
def sseFinish (st : SSEState) : List Json :=
  let ev :=
    if st.buffer.length > 0 then (splitNl st.buffer).foldl doneLine st.ev
    else st.ev
  if ev.eventLines.length > 0 then ev.out ++ (flushEvent ev.eventLines).toList
  else ev.out

/-- The `parseSSE` generator as a function of the response body, given
as the list of physical reads: the list of JSON events it yields. -/
def parseSSE (chunks : List Chars) : List Json :=
  sseFinish (chunks.foldl feedChunk SSEState.init)

-- ============================================
-- NDJSON parser (parseNDJSON, src/sdk/utils/streaming.ts)
-- ============================================

/-- NDJSON line handling: a line with non-whitespace content is parsed
as JSON and yielded; parse failures are dropped. -/
def ndLine (out : List Json) (line : Chars) : List Json :=
  if jsTrim line ≠ [] then out ++ (jsonParse line).toList else out

structure NDState where
  buffer : Chars
  out : List Json

def NDState.init : NDState := ⟨[], []⟩

/-- One `reader.read()` result in `parseNDJSON`. -/
def ndFeedChunk (st : NDState) (chunk : Chars) : NDState :=
  let segs := splitNl (st.buffer ++ chunk)
  { buffer := segs.getLastD [],
    out := segs.dropLast.foldl ndLine st.out }

/-- End-of-stream handling of `parseNDJSON`: the remaining buffer, if
non-blank, is parsed as a final JSON value. -/
def ndFinish (st : NDState) : List Json :=
  if jsTrim st.buffer ≠ [] then st.out ++ (jsonParse st.buffer).toList else st.out

/-- The `parseNDJSON` generator as a function of the response body,
given as the list of physical reads. -/
def parseNDJSON (chunks : List Chars) : List Json :=
  ndFinish (chunks.foldl ndFeedChunk NDState.init)

-- ============================================
-- Chunk-boundary invariance machinery
-- ============================================

/-- Character-at-a-time reference semantics for the SSE read loop. -/
def feedChar (st : SSEState) (c : Char) : SSEState :=
  if c = '\n' then { buffer := [], ev := processLine st.ev st.buffer }
  else { st with buffer := st.buffer ++ [c] }

/-- Character-at-a-time reference semantics for the NDJSON read loop. -/
def ndFeedChar (st : NDState) (c : Char) : NDState :=
  if c = '\n' then { buffer := [], out := ndLine st.out st.buffer }
  else { st with buffer := st.buffer ++ [c] }

/-- The claimed per-line `data:` payload transformation as
the spec words it ("prefix stripped, one leading space trimmed"):
strip `data:` and remove exactly one leading space.  Stated for
comparison with the source's `trimStart`-based transformation. -/
def specLineData (l : Chars) : Chars :=
  match l.drop 5 with
  | ' ' :: rest => rest
  | r => r

/-- The joined event payload as the spec's C8 wording predicts it. -/
def specFlushData (lines : List Chars) : Option Chars :=
  if lines = [] then none
  else
    let dataLines := (lines.filter (fun l => "data:".toList.isPrefixOf l)).map specLineData
    if dataLines = [] then none
    else some (joinNl dataLines)

-- ============================================
-- StreamProcessor (src/sdk/utils/streaming.ts)
-- ============================================

/-- Assoc-list lookup by key, modelling JavaScript `Map.get`, object
key access and `Array.prototype.find` by a name field. -/
def olookup {κ α : Type} [DecidableEq κ] (k : κ) : List (κ × α) → Option α
  | [] => none
  | (k0, v) :: rest => if k0 = k then some v else olookup k rest

/-- JavaScript `Map.set`: replace the value in place when the key is
present (insertion order kept), append otherwise. -/
def mapSet {α : Type} (buf : List (String × α)) (i : String) (v : α) :
    List (String × α) :=
  if (olookup i buf).isSome then
    buf.map (fun kv => if kv.1 = i then (kv.1, v) else kv)
  else buf ++ [(i, v)]

/-- JavaScript object spread `{...a, ...b}`: the keys of `a` in order
with values overridden by `b` where shared, then the keys of `b` not in
`a`, in `b`'s order. -/
def spreadObj (a b : List (String × Json)) : List (String × Json) :=
  a.map (fun kv => (kv.1, (olookup kv.1 b).getD kv.2)) ++
    b.filter (fun kv => (olookup kv.1 a).isNone)

/-- TypeScript `Partial<ToolCall>`: every field optional.  An absent
object key is modelled as `none`. -/
structure ToolCallPartial where
  id : Option String := none
  name : Option String := none
  arguments : Option (List (String × Json)) := none

/-- A complete `ToolCall` (src/sdk/types). -/
structure ToolCall where
  id : String
  name : String
  arguments : List (String × Json)

/-- JavaScript truthiness of an optional string (absent and `""` are
falsy). -/
def truthyStr : Option String → Bool
  | none => false
  | some s => s != ""

/-- The body of `processToolCallChunk`'s update: the object spread
`{...existing, ...partial}` (a field present in the fragment
overwrites, an absent one keeps the existing value), followed by the
shallow `arguments` merge when both sides carry an arguments object. -/
def mergeFragment (existing frag : ToolCallPartial) : ToolCallPartial :=
  let updated : ToolCallPartial :=
    { id := frag.id.orElse (fun _ => existing.id),
      name := frag.name.orElse (fun _ => existing.name),
      arguments := frag.arguments.orElse (fun _ => existing.arguments) }
  match existing.arguments, frag.arguments with
  | some ea, some fa => { updated with arguments := some (spreadObj ea fa) }
  | _, _ => updated

/-- Model of `StreamProcessor.processToolCallChunk`: ignore fragments with a
falsy id; otherwise merge the fragment over the existing entry (empty
when the id is new) and store the result under the id. -/
def processToolCallChunk (buf : List (String × ToolCallPartial))
    (frag : ToolCallPartial) : List (String × ToolCallPartial) :=
  match frag.id with
  | none => buf
  | some i =>
    if i = "" then buf
    else mapSet buf i (mergeFragment ((olookup i buf).getD {}) frag)

/-- The per-entry promotion test shared by `finalizeToolCalls` and
`getToolCalls`: `partial.name && partial.arguments` — a truthy
(non-empty) name and a present (possibly empty) arguments object. -/
def toToolCall (kv : String × ToolCallPartial) : Option ToolCall :=
  match kv.2.name, kv.2.arguments with
  | some n, some args => if n = "" then none else some ⟨kv.1, n, args⟩
  | _, _ => none

/-- Model of `StreamProcessor.finalizeToolCalls`: the complete calls reported to
`onToolCall`, in buffer (insertion) order. -/
def finalizeToolCalls (buf : List (String × ToolCallPartial)) : List ToolCall :=
  buf.filterMap toToolCall

structure TokenUsage where
  promptTokens : Nat
  completionTokens : Nat
  totalTokens : Nat

/-- Generic `StreamChunk` tagged union (src/sdk/types), with the
optional payload fields the processor inspects. -/
inductive StreamChunk where
  | text (content : Option String)
  | tool_call (toolCall : Option ToolCallPartial)
  | thinking (content : Option String)
  | usage (usage : Option TokenUsage)
  | error (error : Option String)
  | done

/-- The `StreamProcessor`'s mutable accumulation state. -/
structure StreamProcessorState where
  textBuffer : String := ""
  toolCallBuffer : List (String × ToolCallPartial) := []
  thinkingBuffer : String := ""
  usage : Option TokenUsage := none

def StreamProcessorState.init : StreamProcessorState := {}

/-- Model of `StreamProcessor.processChunk`; the second component is the list of
complete tool calls pushed through the `onToolCall` callback by this
chunk (non-empty only for `done`). -/
def processChunk (st : StreamProcessorState) (chunk : StreamChunk) :
    StreamProcessorState × List ToolCall :=
  match chunk with
  | .text content =>
    match content with
    | some s => if s != "" then ({ st with textBuffer := st.textBuffer ++ s }, []) else (st, [])
    | none => (st, [])
  | .tool_call tc =>
    match tc with
    | some frag => ({ st with toolCallBuffer := processToolCallChunk st.toolCallBuffer frag }, [])
    | none => (st, [])
  | .thinking content =>
    match content with
    | some s => if s != "" then ({ st with thinkingBuffer := st.thinkingBuffer ++ s }, []) else (st, [])
    | none => (st, [])
  | .usage u =>
    match u with
    | some usage => ({ st with usage := some usage }, [])
    | none => (st, [])
  | .error _ => (st, [])
  | .done => (st, finalizeToolCalls st.toolCallBuffer)

/-- Run the processor over a chunk sequence (state only). -/
def processChunks (st : StreamProcessorState) : List StreamChunk → StreamProcessorState
  | [] => st
  | c :: cs => processChunks (processChunk st c).1 cs

/-- Model of `StreamProcessor.getText`. -/
def getText (st : StreamProcessorState) : String := st.textBuffer

/-- Model of `StreamProcessor.getToolCalls`: same promotion test as
`finalizeToolCalls`, returned as a list. -/
def getToolCalls (st : StreamProcessorState) : List ToolCall :=
  st.toolCallBuffer.filterMap toToolCall

/-- Model of `streamToText`: concatenate the truthy contents of `text` chunks. -/
def streamToText (chunks : List StreamChunk) : String :=
  chunks.foldl (fun text c =>
    match c with
    | .text (some s) => if s != "" then text ++ s else text
    | _ => text) ""

/-- Specification-side description of both `streamToText` and the
processor's text accumulation: the in-order concatenation of the
content of the `text`-variant chunks. -/
def catTexts : List StreamChunk → String
  | [] => ""
  | c :: cs =>
    (match c with | .text (some s) => s | _ => "") ++ catTexts cs

/-- A concrete one-entry processor state used to witness `done_promotion`. -/
def sampleDoneState : StreamProcessorState :=
  { textBuffer := "", thinkingBuffer := "", usage := none,
    toolCallBuffer :=
      [("1", { id := some "1", name := some "f", arguments := some [("x", Json.num "1")] })] }

-- ============================================
-- Tool execution with timeout (executeToolWithTimeout)
-- ============================================

/-- Outcome of awaiting a tool executor's promise: it resolves at some
(abstract) time with a string result, or never resolves. -/
inductive ExecBehavior where
  | resolvesAt (t : Nat) (res : String)
  | never

/-- Model of `ToolDefinition` as `executeToolWithTimeout` sees it: a name and an
optional bound executor, whose behaviour on given arguments is an
`ExecBehavior`. -/
structure ToolDefinition where
  name : String
  execute : Option (List (String × Json) → ExecBehavior)

/-- Model of `ToolResult`; the success path of the source carries no `isError`
key, modelled as `false`. -/
structure ToolResult where
  toolCallId : String
  result : String
  isError : Bool

/-- Model of `Promise.race` of an arbitrary promise (resolution time `none` =
never) against one that surely resolves: the earlier resolution wins,
the first argument winning ties. -/
def race2 (a : Option Nat × ToolResult) (b : Nat × ToolResult) : ToolResult :=
  match a.1 with
  | none => b.2
  | some ta => if ta ≤ b.1 then a.2 else b.2

/-- Model of `executeToolWithTimeout` (default `timeoutMs` is 10000 in the
source): no executor yields an interpolated error result; otherwise the
executor's promise is raced against a `setTimeout` timer resolving to
`Error: timeout`. -/
def executeToolWithTimeout (tool : ToolDefinition) (args : List (String × Json))
    (timeoutMs : Nat) : ToolResult :=
  match tool.execute with
  | none =>
    { toolCallId := "", result := "Error: Tool " ++ tool.name ++ " has no executor",
      isError := true }
  | some f =>
    race2
      (match f args with
       | .resolvesAt t res => (some t, { toolCallId := "", result := res, isError := false })
       | .never => (none, { toolCallId := "", result := "", isError := false }))
      (timeoutMs, { toolCallId := "", result := "Error: timeout", isError := true })

-- ============================================
-- Agent loop (sendMessageToAgent) and tool dispatch
-- ============================================

/-- One part of a model response candidate's content: a text part or a
function-call part. -/
inductive GenPart where
  | text (s : String)
  | functionCall (name : String) (args : List (String × Json))

structure GenContent where
  parts : List GenPart

/-- One `chat.sendMessage` result, reduced to the field the loop reads:
`response.candidates?.[0]?.content` (absent = `none`). -/
structure GenResponse where
  content : Option GenContent

/-- Model of `content.parts.find(p => p.text)`: the first part with truthy text
(a function-call part has no text key; an empty string is falsy). -/
def firstTextPart (parts : List GenPart) : Option String :=
  parts.findSome? (fun p =>
    match p with
    | .text s => if s ≠ "" then some s else none
    | _ => none)

/-- The function-call parts of a content, in order. -/
def functionCallsOf (parts : List GenPart) : List (String × List (String × Json)) :=
  parts.filterMap (fun p =>
    match p with
    | .functionCall n a => some (n, a)
    | _ => none)

/-- Outcome of awaiting one registered tool's `execute`: a result, a
thrown `Error` with a message, or a thrown non-`Error` value. -/
inductive ExecOutcome where
  | ok (s : String)
  | errorThrown (msg : String)
  | otherThrown

def interpretOutcome : ExecOutcome → String
  | .ok s => s
  | .errorThrown m => "Error: " ++ m
  | .otherThrown => "Error: Unknown error"

/-- One tool call inside `sendMessageToAgent`: the router tools are
searched first, then the registry tools; when neither list has a tool
of the requested name the initial value `"Error: Tool not found"` is
returned; a throwing executor is caught and converted. -/
def runTool (routerTools registryTools :
      List (String × (List (String × Json) → ExecOutcome)))
    (name : String) (args : List (String × Json)) : String :=
  match olookup name routerTools with
  | some f => interpretOutcome (f args)
  | none =>
    match olookup name registryTools with
    | some f => interpretOutcome (f args)
    | none => "Error: Tool not found"

/-- Result of the agent loop run: the accumulated text, the number of
loop iterations (model responses processed), and whether the loop
exited via one of its `break`s (`false` = it was still requesting the
next model response when the supplied response sequence ended). -/
structure AgentRunResult where
  finalResponse : String
  iters : Nat
  finished : Bool

/-- The `while (true)` tool-execution loop of `sendMessageToAgent`,
driven by the successive `chat.sendMessage` results.  Tool outcomes are
fed back into the model; here the response list is the oracle for
whatever the model answers next, so tool execution does not influence
control flow.  There is no iteration counter in the source; the loop
breaks only when a response has no content or no function calls. -/
def agentLoop (acc : String) (iters : Nat) : List GenResponse → AgentRunResult
  | [] => ⟨acc, iters, false⟩
  | r :: rest =>
    match r.content with
    | none => ⟨acc, iters + 1, true⟩
    | some content =>
      let acc2 := acc ++ (firstTextPart content.parts).getD ""
      if (functionCallsOf content.parts).isEmpty then ⟨acc2, iters + 1, true⟩
      else agentLoop acc2 (iters + 1) rest

/-- Model of `sendMessageToAgent`, as a function of the model's successive
responses. -/
def sendMessageToAgent (responses : List GenResponse) : AgentRunResult :=
  agentLoop "" 0 responses

/-- A response whose content requests at least one function call keeps
the loop running. -/
def wantsMore (r : GenResponse) : Bool :=
  match r.content with
  | none => false
  | some c => !(functionCallsOf c.parts).isEmpty

/-- Model of `Promise.all` over the tool calls of one turn: each call is
executed under its own timeout, independently of its siblings. -/
def executeToolBatch (calls : List (ToolDefinition × List (String × Json)))
    (tmo : Nat) : List ToolResult :=
  calls.map (fun c => executeToolWithTimeout c.1 c.2 tmo)

/-- A model response that requests one function call, used to drive the
loop another iteration. -/
def fcResponse : GenResponse := ⟨some ⟨[GenPart.functionCall "t" []]⟩⟩

-- ============================================
-- mergeStreams (src/sdk/utils/streaming.ts)
-- ============================================

/-- One run of `mergeStreams`'s race loop.  `pending` holds, for each
still-racing source, its index and remaining items; `sched` is the
oracle deciding which pending `next()` promise resolves first at each
step (taken modulo the pool size, so every schedule describes a valid
resolution order).  A source that resolves `done` is removed from the
race pool; otherwise its item is yielded (tagged with its source index
to record provenance) and its next pull is re-armed. -/
def mergeGo {α : Type} (sched : Nat → Nat) (step : Nat)
    (pending : List (Nat × List α)) : List (Nat × α) :=
  match pending with
  | [] => []
  | p0 :: ps =>
    let k := sched step % (p0 :: ps).length
    match hd : (p0 :: ps).drop k with
    | [] => []
    | (j, l) :: rest =>
      match l with
      | [] => mergeGo sched (step + 1) ((p0 :: ps).take k ++ rest)
      | x :: xs =>
        (j, x) :: mergeGo sched (step + 1) ((p0 :: ps).take k ++ (j, xs) :: rest)
termination_by (pending.map (fun p => p.2.length)).sum + pending.length
decreasing_by
  · generalize hT : (p0 :: ps).take k = T
    have hsplit : p0 :: ps = T ++ (j, ([] : List α)) :: rest := by
      rw [← hT]
      conv_lhs => rw [← List.take_append_drop k (p0 :: ps)]
      rw [hd]
    rw [hsplit]
    simp [List.map_append, List.sum_append]
  · generalize hT : (p0 :: ps).take k = T
    have hsplit : p0 :: ps = T ++ (j, x :: xs) :: rest := by
      rw [← hT]
      conv_lhs => rw [← List.take_append_drop k (p0 :: ps)]
      rw [hd]
    rw [hsplit]
    simp [List.map_append, List.sum_append]

/-- Model of `mergeStreams`, as a function of the source streams and of the
race-resolution schedule; items are tagged with their source index. -/
def mergeStreams {α : Type} (sched : Nat → Nat) (streams : List (List α)) :
    List (Nat × α) :=
  mergeGo sched 0 streams.enum

-- ============================================
-- Theorems
-- ============================================

theorem splitNl_ne_nil (s : Chars) : splitNl s ≠ [] := by
  induction s with
  | nil => simp [splitNl]
  | cons c cs ih =>
    simp only [splitNl]
    split
    · simp
    · cases h : splitNl cs with
      | nil => simp
      | cons l ls => simp

theorem splitNl_cons_nl (cs : Chars) : splitNl ('\n' :: cs) = [] :: splitNl cs := by
  simp [splitNl]

theorem splitNl_cons_other (c : Char) (cs : Chars) (hc : c ≠ '\n') :
    splitNl (c :: cs) =
      match splitNl cs with
      | [] => [[c]]
      | l :: ls => (c :: l) :: ls := by
  simp [splitNl, hc]

/-- Splitting a newline-free string returns just that string. -/
theorem splitNl_no_nl (s : Chars) (h : '\n' ∉ s) : splitNl s = [s] := by
  induction s with
  | nil => simp [splitNl]
  | cons c cs ih =>
    have hc : c ≠ '\n' := fun he => h (he ▸ List.mem_cons_self c cs)
    have hcs : '\n' ∉ cs := fun hm => h (List.mem_cons_of_mem c hm)
    rw [splitNl_cons_other c cs hc, ih hcs]

/-- Prepending a newline-free string merges it into the first segment. -/
theorem splitNl_append_no_nl (x y : Chars) (hx : '\n' ∉ x) :
    splitNl (x ++ y) =
      match splitNl y with
      | [] => [x]
      | l :: ls => (x ++ l) :: ls := by
  induction x with
  | nil =>
    cases h : splitNl y with
    | nil => exact absurd h (splitNl_ne_nil y)
    | cons l ls => simp [h]
  | cons c cs ih =>
    have hc : c ≠ '\n' := fun he => hx (he ▸ List.mem_cons_self c cs)
    have hcs : '\n' ∉ cs := fun hm => hx (List.mem_cons_of_mem c hm)
    cases h : splitNl y with
    | nil => exact absurd h (splitNl_ne_nil y)
    | cons l ls =>
      have := ih hcs
      rw [h] at this
      rw [List.cons_append, splitNl_cons_other c (cs ++ y) hc, this]
      simp

/-- Every segment produced by `splitNl` is newline-free. -/
theorem splitNl_no_nl_mem (s : Chars) : ∀ l ∈ splitNl s, '\n' ∉ l := by
  induction s with
  | nil =>
    intro l hl
    simp [splitNl] at hl
    simp [hl]
  | cons c cs ih =>
    intro l hl
    by_cases hc : c = '\n'
    · subst hc
      rw [splitNl_cons_nl] at hl
      rcases List.mem_cons.mp hl with h | h
      · simp [h]
      · exact ih l h
    · rw [splitNl_cons_other c cs hc] at hl
      cases h : splitNl cs with
      | nil => exact absurd h (splitNl_ne_nil cs)
      | cons a as =>
        rw [h] at hl
        rcases List.mem_cons.mp hl with h1 | h1
        · subst h1
          intro hm
          rcases List.mem_cons.mp hm with h2 | h2
          · exact hc h2.symm
          · exact ih a (h ▸ List.mem_cons_self a as) h2
        · exact ih l (h ▸ List.mem_cons_of_mem a h1)

theorem feedChar_buffer_no_nl (st : SSEState) (c : Char)
    (h : '\n' ∉ st.buffer) : '\n' ∉ (feedChar st c).buffer := by
  unfold feedChar
  split
  · simp
  · rename_i hc
    simp only [List.mem_append, List.mem_singleton]
    rintro (h1 | h1)
    · exact h h1
    · exact hc h1.symm

theorem foldl_feedChar_buffer_no_nl (l : Chars) (st : SSEState)
    (h : '\n' ∉ st.buffer) : '\n' ∉ (l.foldl feedChar st).buffer := by
  induction l generalizing st with
  | nil => exact h
  | cons c cs ih => exact ih _ (feedChar_buffer_no_nl st c h)

/-- Feeding a whole chunk is the same as feeding it character by
character (given the machine invariant that the pending buffer holds no
newline). -/
theorem feedChunk_eq_foldl (chunk : Chars) (st : SSEState)
    (h : '\n' ∉ st.buffer) : feedChunk st chunk = chunk.foldl feedChar st := by
  induction chunk generalizing st with
  | nil =>
    unfold feedChunk
    rw [List.append_nil, splitNl_no_nl st.buffer h]
    simp
  | cons c cs ih =>
    by_cases hc : c = '\n'
    · subst hc
      have hsplit : splitNl (st.buffer ++ '\n' :: cs) = st.buffer :: splitNl cs := by
        rw [splitNl_append_no_nl st.buffer ('\n' :: cs) h, splitNl_cons_nl]
        cases hcs : splitNl cs with
        | nil => exact absurd hcs (splitNl_ne_nil cs)
        | cons m ms => simp
      have hstep : List.foldl feedChar st ('\n' :: cs) =
          List.foldl feedChar ⟨[], processLine st.ev st.buffer⟩ cs := by
        simp [List.foldl_cons, feedChar]
      rw [hstep, ← ih ⟨[], processLine st.ev st.buffer⟩ (by simp)]
      unfold feedChunk
      rw [hsplit]
      cases hcs : splitNl cs with
      | nil => exact absurd hcs (splitNl_ne_nil cs)
      | cons m ms => simp [hcs]
    · have hb : '\n' ∉ st.buffer ++ [c] := by
        simp only [List.mem_append, List.mem_singleton]
        rintro (h1 | h1)
        · exact h h1
        · exact hc h1.symm
      have hstep : List.foldl feedChar st (c :: cs) =
          List.foldl feedChar ⟨st.buffer ++ [c], st.ev⟩ cs := by
        simp [List.foldl_cons, feedChar, hc]
      rw [hstep, ← ih ⟨st.buffer ++ [c], st.ev⟩ hb]
      unfold feedChunk
      simp

/-- Folding the chunk list is the same as folding the concatenated
character stream. -/
theorem foldl_feedChunk_eq (chunks : List Chars) (st : SSEState)
    (h : '\n' ∉ st.buffer) :
    chunks.foldl feedChunk st = (chunks.flatten).foldl feedChar st := by
  induction chunks generalizing st with
  | nil => simp
  | cons c cs ih =>
    rw [List.foldl_cons, List.flatten_cons, List.foldl_append,
      ← feedChunk_eq_foldl c st h]
    exact ih (feedChunk st c) (by
      rw [feedChunk_eq_foldl c st h]
      exact foldl_feedChar_buffer_no_nl c st h)

theorem ndFeedChar_buffer_no_nl (st : NDState) (c : Char)
    (h : '\n' ∉ st.buffer) : '\n' ∉ (ndFeedChar st c).buffer := by
  unfold ndFeedChar
  split
  · simp
  · rename_i hc
    simp only [List.mem_append, List.mem_singleton]
    rintro (h1 | h1)
    · exact h h1
    · exact hc h1.symm

theorem foldl_ndFeedChar_buffer_no_nl (l : Chars) (st : NDState)
    (h : '\n' ∉ st.buffer) : '\n' ∉ (l.foldl ndFeedChar st).buffer := by
  induction l generalizing st with
  | nil => exact h
  | cons c cs ih => exact ih _ (ndFeedChar_buffer_no_nl st c h)

theorem ndFeedChunk_eq_foldl (chunk : Chars) (st : NDState)
    (h : '\n' ∉ st.buffer) : ndFeedChunk st chunk = chunk.foldl ndFeedChar st := by
  induction chunk generalizing st with
  | nil =>
    unfold ndFeedChunk
    rw [List.append_nil, splitNl_no_nl st.buffer h]
    simp
  | cons c cs ih =>
    by_cases hc : c = '\n'
    · subst hc
      have hsplit : splitNl (st.buffer ++ '\n' :: cs) = st.buffer :: splitNl cs := by
        rw [splitNl_append_no_nl st.buffer ('\n' :: cs) h, splitNl_cons_nl]
        cases hcs : splitNl cs with
        | nil => exact absurd hcs (splitNl_ne_nil cs)
        | cons m ms => simp
      have hstep : List.foldl ndFeedChar st ('\n' :: cs) =
          List.foldl ndFeedChar ⟨[], ndLine st.out st.buffer⟩ cs := by
        simp [List.foldl_cons, ndFeedChar]
      rw [hstep, ← ih ⟨[], ndLine st.out st.buffer⟩ (by simp)]
      unfold ndFeedChunk
      rw [hsplit]
      cases hcs : splitNl cs with
      | nil => exact absurd hcs (splitNl_ne_nil cs)
      | cons m ms => simp [hcs]
    · have hb : '\n' ∉ st.buffer ++ [c] := by
        simp only [List.mem_append, List.mem_singleton]
        rintro (h1 | h1)
        · exact h h1
        · exact hc h1.symm
      have hstep : List.foldl ndFeedChar st (c :: cs) =
          List.foldl ndFeedChar ⟨st.buffer ++ [c], st.out⟩ cs := by
        simp [List.foldl_cons, ndFeedChar, hc]
      rw [hstep, ← ih ⟨st.buffer ++ [c], st.out⟩ hb]
      unfold ndFeedChunk
      simp

theorem foldl_ndFeedChunk_eq (chunks : List Chars) (st : NDState)
    (h : '\n' ∉ st.buffer) :
    chunks.foldl ndFeedChunk st = (chunks.flatten).foldl ndFeedChar st := by
  induction chunks generalizing st with
  | nil => simp
  | cons c cs ih =>
    rw [List.foldl_cons, List.flatten_cons, List.foldl_append,
      ← ndFeedChunk_eq_foldl c st h]
    exact ih (ndFeedChunk st c) (by
      rw [ndFeedChunk_eq_foldl c st h]
      exact foldl_ndFeedChar_buffer_no_nl c st h)

theorem stripCR_no_cr (l : Chars) (h : '\r' ∉ l) : stripCR l = l := by
  unfold stripCR
  cases hg : l.getLast? with
  | none => rfl
  | some c =>
    by_cases hc : c = '\r'
    · subst hc
      have hmem : '\r' ∈ l.getLast? := hg
      obtain ⟨hne2, heq⟩ := List.mem_getLast?_eq_getLast hmem
      exact absurd (heq ▸ List.getLast_mem hne2) h
    · cases c
      simp_all [stripCR]

/-- Accumulating a run of plain (non-blank, non-comment, CR-free) lines
just appends them to the pending event. -/
theorem foldl_processLine_plain (ls : List Chars) (st : EvState)
    (h : ∀ l ∈ ls, '\r' ∉ l ∧ l ≠ [] ∧ l.head? ≠ some ':') :
    ls.foldl processLine st = ⟨st.eventLines ++ ls, st.out⟩ := by
  induction ls generalizing st with
  | nil => simp
  | cons l ls' ih =>
    obtain ⟨hcr, hne, hcm⟩ := h l (List.mem_cons_self l ls')
    have hstep : processLine st l = { st with eventLines := st.eventLines ++ [l] } := by
      unfold processLine
      rw [stripCR_no_cr l hcr]
      rw [if_neg hne, if_neg hcm]
    rw [List.foldl_cons, hstep,
      ih _ (fun l' hl' => h l' (List.mem_cons_of_mem l hl'))]
    simp

/-- Splitting a document made of newline-free lines recovers the
lines. -/
theorem splitNl_joinNl_append (ls : List Chars) (rest : Chars)
    (h : ∀ l ∈ ls, '\n' ∉ l) (hne : ls ≠ []) :
    splitNl (joinNl ls ++ '\n' :: rest) = ls ++ splitNl rest := by
  induction ls with
  | nil => exact absurd rfl hne
  | cons l ls' ih =>
    cases ls' with
    | nil =>
      have hl : '\n' ∉ l := h l (List.mem_cons_self l [])
      rw [show joinNl [l] = l from rfl,
        splitNl_append_no_nl l ('\n' :: rest) hl, splitNl_cons_nl]
      simp
    | cons m ms =>
      have hl : '\n' ∉ l := h l (List.mem_cons_self l (m :: ms))
      have hrest : ∀ x ∈ m :: ms, '\n' ∉ x :=
        fun x hx => h x (List.mem_cons_of_mem l hx)
      have hjoin : joinNl (l :: m :: ms) = l ++ '\n' :: joinNl (m :: ms) := rfl
      rw [hjoin, List.append_assoc, List.cons_append,
        splitNl_append_no_nl l ('\n' :: (joinNl (m :: ms) ++ '\n' :: rest)) hl,
        splitNl_cons_nl, ih hrest (by simp)]
      simp

/-- C3: for every partition of a response body into physical reads,
`parseSSE` yields the same event sequence as parsing the whole body in
one read, and `parseNDJSON` yields the same parsed objects — the read
boundaries (even inside a line) are invisible. -/
theorem parse_chunk_boundary_invariance (chunks : List Chars) :
    parseSSE chunks = parseSSE [chunks.flatten] ∧
    parseNDJSON chunks = parseNDJSON [chunks.flatten] := by
  have hbuf : '\n' ∉ SSEState.init.buffer := by simp [SSEState.init]
  have hbuf2 : '\n' ∉ NDState.init.buffer := by simp [NDState.init]
  constructor
  · unfold parseSSE
    rw [foldl_feedChunk_eq chunks SSEState.init hbuf,
      List.foldl_cons, List.foldl_nil,
      feedChunk_eq_foldl chunks.flatten SSEState.init hbuf]
  · unfold parseNDJSON
    rw [foldl_ndFeedChunk_eq chunks NDState.init hbuf2,
      List.foldl_cons, List.foldl_nil,
      ndFeedChunk_eq_foldl chunks.flatten NDState.init hbuf2]

/-- C1 counterexample: a body whose first event is the `[DONE]`
sentinel and whose second is a complete JSON event.  `parseSSE` still
emits the second event, so — contrary to the claim — the generator does
not terminate at `[DONE]`: `flushEvent` merely returns without
yielding and the read loop continues. -/
theorem parseSSE_emits_after_done :
    parseSSE ["data: [DONE]\n\ndata: \x7b\"a\":1\x7d\n\n".toList] =
      [Json.obj [("a", Json.num "1")]] := rfl

/-- C1 amended: an event whose joined payload is exactly `[DONE]`
yields no emitted event, but parsing continues unchanged — prepending a
`[DONE]` event to a body leaves the emitted sequence exactly that of
the body alone (later events are still emitted). -/
theorem parseSSE_done_event_skipped (lines : List Chars) (doc : Chars)
    (h : flushData lines = some "[DONE]".toList) :
    flushEvent lines = none ∧
    parseSSE ["data: [DONE]\n\n".toList ++ doc] = parseSSE [doc] := by
  constructor
  · unfold flushEvent
    rw [h]
    simp
  · unfold parseSSE
    rw [List.foldl_cons, List.foldl_nil, List.foldl_cons, List.foldl_nil,
      feedChunk_eq_foldl _ SSEState.init (by simp [SSEState.init]),
      feedChunk_eq_foldl _ SSEState.init (by simp [SSEState.init]),
      List.foldl_append]
    have hpre : List.foldl feedChar SSEState.init ("data: [DONE]\n\n".toList) =
        SSEState.init := rfl
    rw [hpre]

theorem parseSSE_done_event_skipped_witness :
    flushEvent ["data: [DONE]".toList] = none ∧
    parseSSE ["data: [DONE]\n\n".toList ++ "data: \x7b\"a\":1\x7d\n\n".toList] =
      parseSSE ["data: \x7b\"a\":1\x7d\n\n".toList] :=
  parseSSE_done_event_skipped ["data: [DONE]".toList] "data: \x7b\"a\":1\x7d\n\n".toList rfl

/-- C8 counterexample: the code trims ALL leading whitespace from a
`data:` line payload (JavaScript `trimStart`), not exactly one leading
space as claimed: on `data:␣␣[1]` (two spaces) the code's joined
payload is `[1]` while the claimed transformation leaves `␣[1]`. -/
theorem flushData_counterexample :
    flushData ["data:  [1]".toList] = some "[1]".toList ∧
    specFlushData ["data:  [1]".toList] = some " [1]".toList ∧
    some ("[1]".toList) ≠ some (" [1]".toList) := ⟨rfl, rfl, by decide⟩

/-- C8 amended: for a single-event document, `parseSSE` collects
exactly the `data:` lines, strips the prefix, trims ALL leading
whitespace (`trimStart`) from each, joins them with one `\n`, and
parses the joined payload as one JSON value, yielding at most one
event. -/
theorem parseSSE_single_event_payload (ls : List Chars)
    (h : ∀ l ∈ ls, '\n' ∉ l ∧ '\r' ∉ l ∧ l ≠ [] ∧ l.head? ≠ some ':')
    (hne : ls ≠ [])
    (hdl : (ls.filter (fun l => "data:".toList.isPrefixOf l)).map
        (fun l => trimStart (l.drop 5)) ≠ [])
    (hdata : joinNl ((ls.filter (fun l => "data:".toList.isPrefixOf l)).map
        (fun l => trimStart (l.drop 5))) ≠ [])
    (hdone : joinNl ((ls.filter (fun l => "data:".toList.isPrefixOf l)).map
        (fun l => trimStart (l.drop 5))) ≠ "[DONE]".toList) :
    parseSSE [joinNl ls ++ "\n\n".toList] =
      (jsonParse (joinNl ((ls.filter (fun l => "data:".toList.isPrefixOf l)).map
        (fun l => trimStart (l.drop 5))))).toList := by
  have hflush : flushEvent ls =
      jsonParse (joinNl ((ls.filter (fun l => "data:".toList.isPrefixOf l)).map
        (fun l => trimStart (l.drop 5)))) := by
    unfold flushEvent flushData
    rw [if_neg hne, if_neg hdl]
    dsimp only
    rw [if_neg hdata, if_neg hdone]
  have hsplit : splitNl (SSEState.init.buffer ++ (joinNl ls ++ "\n\n".toList)) =
      ls ++ [[], []] := by
    rw [show SSEState.init.buffer = ([] : Chars) from rfl, List.nil_append,
      show ("\n\n".toList : Chars) = '\n' :: ['\n'] from rfl,
      splitNl_joinNl_append ls ['\n'] (fun l hl => (h l hl).1) hne]
    rfl
  unfold parseSSE
  rw [List.foldl_cons, List.foldl_nil]
  unfold feedChunk
  simp only [hsplit]
  have hdrop : (ls ++ [([] : Chars), []]).dropLast = ls ++ [[]] := by
    rw [show (ls ++ [[], []] : List Chars) = (ls ++ [[]]) ++ [[]] by simp,
      List.dropLast_concat]
  have hlastd : (ls ++ [([] : Chars), []]).getLastD [] = [] := by
    rw [show (ls ++ [[], []] : List Chars) = (ls ++ [[]]) ++ [[]] by simp,
      List.getLastD_concat]
  rw [hdrop, hlastd, List.foldl_append,
    foldl_processLine_plain ls SSEState.init.ev (fun l hl =>
      ⟨(h l hl).2.1, (h l hl).2.2.1, (h l hl).2.2.2⟩),
    List.foldl_cons, List.foldl_nil]
  have hproc : processLine ⟨SSEState.init.ev.eventLines ++ ls, SSEState.init.ev.out⟩ [] =
      ⟨[], (flushEvent ls).toList⟩ := by
    unfold processLine
    simp [stripCR, SSEState.init]
  rw [hproc]
  unfold sseFinish
  simp [hflush]

theorem parseSSE_single_event_payload_witness :
    parseSSE [joinNl ["data: [1,".toList, "data: 2]".toList] ++ "\n\n".toList] =
      (jsonParse (joinNl ((["data: [1,".toList, "data: 2]".toList].filter
        (fun l => "data:".toList.isPrefixOf l)).map
        (fun l => trimStart (l.drop 5))))).toList :=
  parseSSE_single_event_payload ["data: [1,".toList, "data: 2]".toList]
    (by decide) (by decide) (by decide) (by decide) (by decide)

-- ============================================
-- Assoc-list lemmas for the tool-call merge
-- ============================================

theorem olookup_append {κ α : Type} [DecidableEq κ] (k : κ) (x y : List (κ × α)) :
    olookup k (x ++ y) = (olookup k x <|> olookup k y) := by
  induction x with
  | nil => simp [olookup]
  | cons kv rest ih =>
    obtain ⟨k0, v⟩ := kv
    by_cases h : k0 = k
    · simp [olookup, h]
    · simp [olookup, h, ih]

theorem olookup_spread_map (k : String) (a b : List (String × Json)) :
    olookup k (a.map (fun kv => (kv.1, (olookup kv.1 b).getD kv.2))) =
      (olookup k a).map (fun v => (olookup k b).getD v) := by
  induction a with
  | nil => simp [olookup]
  | cons kv rest ih =>
    obtain ⟨k0, v0⟩ := kv
    by_cases h : k0 = k
    · subst h
      simp [olookup]
    · simp [olookup, h, ih]

theorem olookup_filter_keyabsent (k : String) (a b : List (String × Json))
    (h : olookup k a = none) :
    olookup k (b.filter (fun kv => (olookup kv.1 a).isNone)) = olookup k b := by
  induction b with
  | nil => simp
  | cons kv rest ih =>
    obtain ⟨k0, v0⟩ := kv
    by_cases hk : k0 = k
    · subst hk
      simp [List.filter_cons, h, olookup]
    · rw [List.filter_cons]
      by_cases hp : (olookup k0 a).isNone
      · simp only [hp, if_pos]
        simp [olookup, hk, ih]
      · simp only [hp]
        simp [olookup, hk, ih]

/-- Lookup law of the JavaScript object spread: the incoming object
wins on shared keys, the union of keys is covered. -/
theorem olookup_spreadObj (k : String) (a b : List (String × Json)) :
    olookup k (spreadObj a b) = (olookup k b <|> olookup k a) := by
  unfold spreadObj
  rw [olookup_append, olookup_spread_map]
  cases ha : olookup k a with
  | none =>
    rw [olookup_filter_keyabsent k a b ha]
    cases hb : olookup k b <;> simp
  | some v =>
    cases hb : olookup k b <;> simp [hb]

theorem olookup_mapSet_aux {α : Type} (i j : String) (v : α)
    (buf : List (String × α)) :
    olookup j (buf.map (fun kv => if kv.1 = i then (kv.1, v) else kv)) =
      if j = i then (olookup j buf).map (fun _ => v) else olookup j buf := by
  induction buf with
  | nil => by_cases hj : j = i <;> simp [olookup, hj]
  | cons kv rest ih =>
    obtain ⟨k0, v0⟩ := kv
    rw [List.map_cons]
    by_cases hk : k0 = i
    · subst hk
      have hhead : (if (k0, v0).1 = k0 then ((k0, v0).1, v) else ((k0, v0) : String × α)) =
          (k0, v) := by simp
      rw [hhead]
      by_cases hj : j = k0
      · subst hj
        simp [olookup, ih]
      · have hk0j : ¬ (k0 = j) := fun h => hj h.symm
        simp [olookup, hk0j, hj, ih]
    · have hhead : (if (k0, v0).1 = i then ((k0, v0).1, v) else ((k0, v0) : String × α)) =
          (k0, v0) := by simp [hk]
      rw [hhead]
      by_cases hj : k0 = j
      · subst hj
        simp [olookup, hk]
      · simp [olookup, hj, ih]

theorem olookup_mapSet_self {α : Type} (i : String) (v : α)
    (buf : List (String × α)) : olookup i (mapSet buf i v) = some v := by
  unfold mapSet
  by_cases h : (olookup i buf).isSome
  · rw [if_pos h, olookup_mapSet_aux]
    obtain ⟨w, hw⟩ := Option.isSome_iff_exists.mp h
    simp [hw]
  · rw [if_neg h, olookup_append]
    have : olookup i buf = none := Option.not_isSome_iff_eq_none.mp h
    simp [this, olookup]

theorem olookup_mapSet_other {α : Type} (i j : String) (v : α)
    (buf : List (String × α)) (hji : j ≠ i) :
    olookup j (mapSet buf i v) = olookup j buf := by
  unfold mapSet
  by_cases h : (olookup i buf).isSome
  · rw [if_pos h, olookup_mapSet_aux, if_neg hji]
  · rw [if_neg h, olookup_append]
    have hij : ¬ (i = j) := fun hh => hji hh.symm
    cases holo : olookup j buf <;> simp [olookup, hij, holo]

theorem mergeFragment_name (e f : ToolCallPartial) :
    (mergeFragment e f).name = f.name.orElse (fun _ => e.name) := by
  unfold mergeFragment
  cases e.arguments <;> cases f.arguments <;> rfl

theorem mergeFragment_args_both (e f : ToolCallPartial)
    (ea fa : List (String × Json)) (he : e.arguments = some ea)
    (hf : f.arguments = some fa) :
    (mergeFragment e f).arguments = some (spreadObj ea fa) := by
  unfold mergeFragment
  rw [he, hf]

theorem mergeFragment_args_none_left (e f : ToolCallPartial)
    (he : e.arguments = none) : (mergeFragment e f).arguments = f.arguments := by
  unfold mergeFragment
  rw [he]
  cases hf : f.arguments <;> simp [hf, Option.orElse]

theorem mergeFragment_args_none_right (e f : ToolCallPartial)
    (hf : f.arguments = none) : (mergeFragment e f).arguments = e.arguments := by
  unfold mergeFragment
  rw [hf]
  cases he : e.arguments <;> simp [he, Option.orElse]

/-- C4: tool-call fragments are merged into the per-id map: a fragment
with a falsy id leaves the map unchanged; otherwise only its id's entry
changes, fields present in the fragment overwrite while absent ones
keep the existing value, and when both sides carry an `arguments`
mapping the result is their key union with the incoming fragment
winning on every conflicting key. -/
theorem processToolCallChunk_merge (buf : List (String × ToolCallPartial))
    (frag : ToolCallPartial) :
    (truthyStr frag.id = false → processToolCallChunk buf frag = buf) ∧
    (∀ i, frag.id = some i → i ≠ "" →
      (∀ j, j ≠ i → olookup j (processToolCallChunk buf frag) = olookup j buf) ∧
      ∃ u, olookup i (processToolCallChunk buf frag) = some u ∧
        u.name = frag.name.orElse (fun _ => ((olookup i buf).getD {}).name) ∧
        (∀ ea fa, ((olookup i buf).getD {}).arguments = some ea →
          frag.arguments = some fa →
          ∃ m, u.arguments = some m ∧
            ∀ k, olookup k m = (olookup k fa <|> olookup k ea)) ∧
        (((olookup i buf).getD {}).arguments = none →
          u.arguments = frag.arguments) ∧
        (frag.arguments = none →
          u.arguments = ((olookup i buf).getD {}).arguments)) := by
  constructor
  · intro ht
    unfold processToolCallChunk
    cases hid : frag.id with
    | none => rfl
    | some i =>
      have hie : i = "" := by
        rw [hid] at ht
        simpa [truthyStr] using ht
      subst hie
      simp
  · intro i hid hne
    have hrun : processToolCallChunk buf frag =
        mapSet buf i (mergeFragment ((olookup i buf).getD {}) frag) := by
      unfold processToolCallChunk
      rw [hid]
      simp [hne]
    refine ⟨fun j hj => by rw [hrun, olookup_mapSet_other i j _ buf hj], ?_⟩
    refine ⟨mergeFragment ((olookup i buf).getD {}) frag,
      by rw [hrun, olookup_mapSet_self], mergeFragment_name _ _, ?_, ?_, ?_⟩
    · intro ea fa hea hfa
      exact ⟨spreadObj ea fa, mergeFragment_args_both _ _ ea fa hea hfa,
        fun k => olookup_spreadObj k ea fa⟩
    · intro hnone
      exact mergeFragment_args_none_left _ _ hnone
    · intro hfnone
      exact mergeFragment_args_none_right _ _ hfnone

theorem processToolCallChunk_merge_witness :
    ∃ u, olookup "1" (processToolCallChunk
        [("1", { id := some "1", name := some "f",
                 arguments := some [("a", Json.num "1"), ("b", Json.num "2")] })]
        { id := some "1", name := none,
          arguments := some [("b", Json.num "3"), ("c", Json.num "4")] }) = some u ∧
      u.name = some "f" ∧
      ∃ m, u.arguments = some m ∧
        olookup "a" m = some (Json.num "1") ∧
        olookup "b" m = some (Json.num "3") ∧
        olookup "c" m = some (Json.num "4") := by
  obtain ⟨-, h2⟩ := processToolCallChunk_merge
    [("1", { id := some "1", name := some "f",
             arguments := some [("a", Json.num "1"), ("b", Json.num "2")] })]
    { id := some "1", name := none,
      arguments := some [("b", Json.num "3"), ("c", Json.num "4")] }
  obtain ⟨-, u, hu, hname, hboth, -, -⟩ := h2 "1" rfl (by decide)
  obtain ⟨m, hm, hk⟩ := hboth [("a", Json.num "1"), ("b", Json.num "2")]
    [("b", Json.num "3"), ("c", Json.num "4")] rfl rfl
  refine ⟨u, hu, by rw [hname]; rfl, m, hm, ?_, ?_, ?_⟩
  · rw [hk "a"]; rfl
  · rw [hk "b"]; rfl
  · rw [hk "c"]; rfl

/-- C5 counterexample: a partial tool call whose `arguments` mapping is
present but EMPTY is still promoted at `done` (an empty object is
truthy in JavaScript), contradicting the claim that a non-empty
arguments mapping is required. -/
theorem done_promotes_empty_arguments :
    (processChunk
      { textBuffer := "", thinkingBuffer := "", usage := none,
        toolCallBuffer := [("1", { id := some "1", name := some "f", arguments := some [] })] }
      StreamChunk.done).2 = [{ id := "1", name := "f", arguments := [] }] := rfl

/-- C5 amended: at `done` the processor reports via `onToolCall`
exactly the calls `getToolCalls` returns, the buffers are untouched,
and a call is promoted precisely when its buffered partial has a truthy
(non-empty) `name` and a PRESENT (possibly empty) `arguments` mapping;
entries missing either are dropped without being reported or raised. -/
theorem done_promotion (st : StreamProcessorState) :
    (processChunk st StreamChunk.done).2 = getToolCalls st ∧
    (processChunk st StreamChunk.done).1 = st ∧
    ∀ tc : ToolCall, tc ∈ getToolCalls st ↔
      ∃ p : ToolCallPartial, (tc.id, p) ∈ st.toolCallBuffer ∧
        p.name = some tc.name ∧ tc.name ≠ "" ∧ p.arguments = some tc.arguments := by
  refine ⟨rfl, rfl, fun tc => ?_⟩
  unfold getToolCalls
  rw [List.mem_filterMap]
  constructor
  · rintro ⟨⟨i, p⟩, hmem, hf⟩
    cases hn : p.name with
    | none => simp [toToolCall, hn] at hf
    | some n =>
      cases ha : p.arguments with
      | none => simp [toToolCall, hn, ha] at hf
      | some args =>
        by_cases hne : n = ""
        · simp [toToolCall, hn, ha, hne] at hf
        · simp only [toToolCall, hn, ha, if_neg hne, Option.some.injEq] at hf
          subst hf
          exact ⟨p, hmem, hn, hne, ha⟩
  · rintro ⟨p, hmem, hn, hne, ha⟩
    refine ⟨(tc.id, p), hmem, ?_⟩
    simp only [toToolCall, hn, ha, if_neg hne]

theorem done_promotion_witness :
    (processChunk sampleDoneState StreamChunk.done).2 = getToolCalls sampleDoneState ∧
    ({ id := "1", name := "f", arguments := [("x", Json.num "1")] } : ToolCall)
      ∈ getToolCalls sampleDoneState := by
  have h := done_promotion sampleDoneState
  exact ⟨h.1, (h.2.2 _).mpr ⟨_, List.mem_singleton.mpr rfl, rfl, by decide, rfl⟩⟩

theorem processChunks_textBuffer (chunks : List StreamChunk) (st : StreamProcessorState) :
    (processChunks st chunks).textBuffer = st.textBuffer ++ catTexts chunks := by
  induction chunks generalizing st with
  | nil => simp [processChunks, catTexts]
  | cons c cs ih =>
    rw [show processChunks st (c :: cs) = processChunks (processChunk st c).1 cs from rfl, ih]
    cases c with
    | text content =>
      cases content with
      | none => simp [processChunk, catTexts]
      | some s =>
        by_cases hs : s = ""
        · subst hs
          simp [processChunk, catTexts]
        · have hbs : (s != "") = true := by simp [hs]
          simp [processChunk, catTexts, hbs, String.append_assoc]
    | tool_call tc => cases tc <;> simp [processChunk, catTexts]
    | thinking content =>
      cases content with
      | none => simp [processChunk, catTexts]
      | some s =>
        simp only [processChunk]
        split <;> simp [catTexts]
    | usage u => cases u <;> simp [processChunk, catTexts]
    | error e => simp [processChunk, catTexts]
    | done => simp [processChunk, catTexts]

theorem streamToText_go (chunks : List StreamChunk) (acc : String) :
    List.foldl (fun text c =>
      match c with
      | StreamChunk.text (some s) => if s != "" then text ++ s else text
      | _ => text) acc chunks = acc ++ catTexts chunks := by
  induction chunks generalizing acc with
  | nil => simp [catTexts]
  | cons c cs ih =>
    rw [List.foldl_cons, ih]
    cases c with
    | text content =>
      cases content with
      | none => simp [catTexts]
      | some s =>
        by_cases hs : s = ""
        · subst hs
          simp [catTexts]
        · have hbs : (s != "") = true := by simp [hs]
          simp [catTexts, hbs, String.append_assoc]
    | tool_call tc => simp [catTexts]
    | thinking content => simp [catTexts]
    | usage u => simp [catTexts]
    | error e => simp [catTexts]
    | done => simp [catTexts]

/-- C10: `streamToText` over a finite chunk sequence equals the
`getText()` of a fresh `StreamProcessor` after `processChunk` on each
chunk in order, and both equal the in-order concatenation of the
content of the text-variant chunks (other variants and empty text
contribute nothing). -/
theorem streamToText_refines_processor (chunks : List StreamChunk) :
    streamToText chunks = getText (processChunks StreamProcessorState.init chunks) ∧
    streamToText chunks = catTexts chunks := by
  have h2 : streamToText chunks = catTexts chunks := by
    unfold streamToText
    rw [streamToText_go chunks ""]
    exact String.empty_append _
  refine ⟨?_, h2⟩
  rw [h2]
  unfold getText
  rw [processChunks_textBuffer]
  simp [StreamProcessorState.init]

theorem agentLoop_iters_replicate (k : Nat) (acc : String) (n : Nat) :
    (agentLoop acc n (List.replicate k fcResponse)).iters = n + k := by
  induction k generalizing acc n with
  | zero => rfl
  | succ k ih =>
    rw [List.replicate_succ]
    show (agentLoop _ (n + 1) (List.replicate k fcResponse)).iters = n + (k + 1)
    rw [ih]
    omega

/-- C2 counterexample: `sendMessageToAgent`'s tool loop is
`while (true)` with no iteration counter — for every candidate bound
`B` a conversation in which the model requests a tool call on every
turn drives the loop past `B` iterations, and no iteration-limit
failure is ever produced (the run result has no such outcome). -/
theorem sendMessageToAgent_no_iteration_cap :
    ¬ ∃ B : Nat, ∀ responses : List GenResponse,
      (sendMessageToAgent responses).iters ≤ B := by
  rintro ⟨B, hB⟩
  have h := hB (List.replicate (B + 1) fcResponse)
  rw [sendMessageToAgent, agentLoop_iters_replicate] at h
  omega

theorem agentLoop_iters_characterization (responses : List GenResponse)
    (acc : String) (n : Nat) :
    (agentLoop acc n responses).iters =
      n + min responses.length ((responses.takeWhile wantsMore).length + 1) ∧
    ((agentLoop acc n responses).finished = true ↔
      (responses.takeWhile wantsMore).length < responses.length) := by
  induction responses generalizing acc n with
  | nil => simp [agentLoop]
  | cons r rest ih =>
    cases hc : r.content with
    | none =>
      have hw : wantsMore r = false := by simp [wantsMore, hc]
      simp [agentLoop, hc, List.takeWhile_cons, hw]
    | some content =>
      by_cases hfc : (functionCallsOf content.parts).isEmpty
      · have hw : wantsMore r = false := by
          simp [wantsMore, hc, hfc]
        simp [agentLoop, hc, hfc, List.takeWhile_cons, hw]
      · have hw : wantsMore r = true := by
          simp [wantsMore, hc]
          simpa using hfc
        have hstep : agentLoop acc n (r :: rest) =
            agentLoop (acc ++ (firstTextPart content.parts).getD "") (n + 1) rest := by
          simp [agentLoop, hc, hfc]
        have hrec := ih (acc ++ (firstTextPart content.parts).getD "") (n + 1)
        rw [hstep, List.takeWhile_cons, hw]
        refine ⟨?_, ?_⟩
        · rw [hrec.1]
          simp only [eq_self_iff_true, if_true, List.length_cons]
          omega
        · rw [hrec.2]
          simp only [eq_self_iff_true, if_true, List.length_cons]
          omega

/-- C2 amended: the loop has NO iteration cap.  It performs exactly one
iteration per model response, continuing while each response carries
content with at least one function call; it terminates exactly when a
response lacks content or requests no function call, and exceeding any
bound produces no failure report — the iteration count is simply
unbounded in the conversation. -/
theorem sendMessageToAgent_iterations (responses : List GenResponse) :
    (sendMessageToAgent responses).iters =
      min responses.length ((responses.takeWhile wantsMore).length + 1) ∧
    ((sendMessageToAgent responses).finished = true ↔
      (responses.takeWhile wantsMore).length < responses.length) := by
  have h := agentLoop_iters_characterization responses "" 0
  rw [Nat.zero_add] at h
  exact h

/-- C6 counterexample: a tool call whose name matches no registered
executor produces the FIXED text `"Error: Tool not found"` — the
requested name is not interpolated. -/
theorem runTool_not_found_counterexample :
    runTool [] [] "get_weather" [] = "Error: Tool not found" ∧
    "Error: Tool not found" ≠ "Error: Tool get_weather not found" :=
  ⟨rfl, by decide⟩

/-- C6 amended: the agent loop does not raise for an unknown tool; it
synthesizes the fixed text `"Error: Tool not found"` (no name
interpolation).  Separately, the SDK's `executeToolWithTimeout` does
interpolate the name, but with a different message: a `ToolDefinition`
without a bound executor yields `"Error: Tool <name> has no executor"`
flagged as an error. -/
theorem runTool_not_found (rt gt : List (String × (List (String × Json) → ExecOutcome)))
    (name : String) (args : List (String × Json))
    (h1 : olookup name rt = none) (h2 : olookup name gt = none)
    (td : ToolDefinition) (hex : td.execute = none)
    (targs : List (String × Json)) (tmo : Nat) :
    runTool rt gt name args = "Error: Tool not found" ∧
    executeToolWithTimeout td targs tmo =
      { toolCallId := "", result := "Error: Tool " ++ td.name ++ " has no executor",
        isError := true } := by
  constructor
  · unfold runTool
    rw [h1, h2]
  · unfold executeToolWithTimeout
    rw [hex]

theorem runTool_not_found_witness :
    runTool [] [] "get_weather" [] = "Error: Tool not found" ∧
    executeToolWithTimeout ⟨"get_weather", none⟩ [] 10000 =
      { toolCallId := "", result := "Error: Tool get_weather has no executor",
        isError := true } :=
  runTool_not_found [] [] "get_weather" [] rfl rfl ⟨"get_weather", none⟩ rfl [] 10000

/-- C7: with a bound executor, `executeToolWithTimeout` returns the
executor's result when it resolves within the bound, and the error
result `"Error: timeout"` when it resolves later or never — the race
always settles, and within a batch each call's outcome is a function of
that call alone (the timeout is local, siblings are unaffected). -/
theorem executeToolWithTimeout_behaviour
    (tool : ToolDefinition) (args : List (String × Json)) (tmo : Nat)
    (f : List (String × Json) → ExecBehavior) (hex : tool.execute = some f) :
    (∀ t res, f args = .resolvesAt t res → t ≤ tmo →
      executeToolWithTimeout tool args tmo = ⟨"", res, false⟩) ∧
    (∀ t res, f args = .resolvesAt t res → tmo < t →
      executeToolWithTimeout tool args tmo = ⟨"", "Error: timeout", true⟩) ∧
    (f args = .never →
      executeToolWithTimeout tool args tmo = ⟨"", "Error: timeout", true⟩) ∧
    ∀ (pre post : List (ToolDefinition × List (String × Json)))
      (c : ToolDefinition × List (String × Json)),
      (executeToolBatch (pre ++ c :: post) tmo)[pre.length]? =
        some (executeToolWithTimeout c.1 c.2 tmo) := by
  refine ⟨?_, ?_, ?_, ?_⟩
  · intro t res hf ht
    simp only [executeToolWithTimeout, hex]
    rw [hf]
    simp [race2, ht]
  · intro t res hf ht
    simp only [executeToolWithTimeout, hex]
    rw [hf]
    simp [race2, Nat.not_le.mpr ht]
  · intro hf
    simp only [executeToolWithTimeout, hex]
    rw [hf]
    rfl
  · intro pre post c
    unfold executeToolBatch
    rw [List.getElem?_map]
    rw [List.getElem?_append_right (Nat.le_refl _)]
    simp

theorem executeToolWithTimeout_behaviour_witness :
    executeToolWithTimeout ⟨"t", some (fun _ => ExecBehavior.resolvesAt 5 "ok")⟩ [] 10000 =
      ⟨"", "ok", false⟩ ∧
    executeToolWithTimeout ⟨"t", some (fun _ => ExecBehavior.never)⟩ [] 10000 =
      ⟨"", "Error: timeout", true⟩ := by
  have h1 := executeToolWithTimeout_behaviour
    ⟨"t", some (fun _ => ExecBehavior.resolvesAt 5 "ok")⟩ [] 10000 _ rfl
  have h2 := executeToolWithTimeout_behaviour
    ⟨"t", some (fun _ => ExecBehavior.never)⟩ [] 10000 _ rfl
  exact ⟨h1.1 5 "ok" rfl (by omega), h2.2.2.1 rfl⟩

theorem mergeGo_eq_erase {α : Type} (sched : Nat → Nat) (step : Nat)
    (p0 : Nat × List α) (ps : List (Nat × List α)) (j : Nat) (rest : List (Nat × List α))
    (hd : (p0 :: ps).drop (sched step % (p0 :: ps).length) = (j, ([] : List α)) :: rest) :
    mergeGo sched step (p0 :: ps) =
      mergeGo sched (step + 1) ((p0 :: ps).take (sched step % (p0 :: ps).length) ++ rest) := by
  rw [mergeGo.eq_def]
  dsimp only
  split
  · rename_i h
    rw [hd] at h
    cases h
  · rename_i j2 l2 rest2 h
    rw [hd] at h
    injection h with h1 h2
    injection h1 with h3 h4
    subst h3
    subst h2
    subst h4
    rfl

theorem mergeGo_eq_yield {α : Type} (sched : Nat → Nat) (step : Nat)
    (p0 : Nat × List α) (ps : List (Nat × List α)) (j : Nat) (x : α) (xs : List α)
    (rest : List (Nat × List α))
    (hd : (p0 :: ps).drop (sched step % (p0 :: ps).length) = (j, x :: xs) :: rest) :
    mergeGo sched step (p0 :: ps) =
      (j, x) :: mergeGo sched (step + 1)
        ((p0 :: ps).take (sched step % (p0 :: ps).length) ++ (j, xs) :: rest) := by
  rw [mergeGo.eq_def]
  dsimp only
  split
  · rename_i h
    rw [hd] at h
    cases h
  · rename_i j2 l2 rest2 h
    rw [hd] at h
    injection h with h1 h2
    injection h1 with h3 h4
    subst h3
    subst h2
    subst h4
    rfl

theorem olookup_eq_none {κ α : Type} [DecidableEq κ] (k : κ)
    (l : List (κ × α)) (h : k ∉ l.map Prod.fst) : olookup k l = none := by
  induction l with
  | nil => rfl
  | cons kv rest ih =>
    obtain ⟨k0, v⟩ := kv
    have hne : k0 ≠ k := by
      intro he
      exact h (by simp [he])
    simp only [olookup, if_neg hne]
    exact ih (fun hm => h (by simp at hm ⊢; exact Or.inr hm))

/-- Per-source projection of a merge run: for every source index `i`,
the items tagged `i` in the output are exactly the remaining items of
source `i` in `pending`, in order (sources absent from the pool
contribute nothing).  Requires the pool's indices to be distinct, as
they are when it is built from `streams.enum`. -/
theorem mergeGo_lookup {α : Type} (sched : Nat → Nat) (step : Nat)
    (pending : List (Nat × List α))
    (hnd : (pending.map Prod.fst).Nodup) (i : Nat) :
    ((mergeGo sched step pending).filter (fun p => p.1 = i)).map Prod.snd =
      (olookup i pending).getD [] := by
  induction step, pending using mergeGo.induct sched with
  | case1 step =>
    rw [mergeGo.eq_def]
    simp [olookup]
  | case2 step p0 ps k h =>
    have hk : k < (p0 :: ps).length := Nat.mod_lt _ (by simp)
    rw [List.drop_eq_nil_iff] at h
    omega
  | case3 step p0 ps k j rest h1 h2 ih =>
    clear h2
    have hsplit : p0 :: ps = (p0 :: ps).take k ++ (j, ([] : List α)) :: rest := by
      conv_lhs => rw [← List.take_append_drop k (p0 :: ps)]
      rw [h1]
    rw [hsplit] at hnd
    simp only [List.map_append, List.map_cons, List.nodup_append, List.nodup_cons] at hnd
    obtain ⟨ha, ⟨hjr, hb⟩, hc⟩ := hnd
    have hj_take : j ∉ ((p0 :: ps).take k).map Prod.fst := fun hm => hc hm (by simp)
    have hnd2 : (((p0 :: ps).take k ++ rest).map Prod.fst).Nodup := by
      simp only [List.map_append, List.nodup_append]
      refine ⟨ha, hb, ?_⟩
      intro a haa hbb
      exact hc haa (by simp [hbb])
    rw [mergeGo_eq_erase sched step p0 ps j rest h1, ih hnd2]
    by_cases hij : i = j
    · subst hij
      rw [olookup_eq_none i _ (by
          simp only [List.map_append, List.mem_append]
          rintro (hm | hm)
          · exact hj_take hm
          · exact hjr hm)]
      conv_rhs => rw [hsplit]
      rw [olookup_append, olookup_eq_none i _ hj_take]
      simp [olookup]
    · conv_rhs => rw [hsplit]
      rw [olookup_append, olookup_append]
      have hji : ¬ (j = i) := fun h => hij h.symm
      have hskip : olookup i ((j, ([] : List α)) :: rest) = olookup i rest := by
        simp [olookup, hji]
      rw [hskip]
  | case4 step p0 ps k j rest x xs h1 h2 ih =>
    clear h2
    have hsplit : p0 :: ps = (p0 :: ps).take k ++ (j, x :: xs) :: rest := by
      conv_lhs => rw [← List.take_append_drop k (p0 :: ps)]
      rw [h1]
    have hkeys : (((p0 :: ps).take k ++ (j, xs) :: rest).map Prod.fst) =
        ((p0 :: ps).map Prod.fst) := by
      conv_rhs => rw [hsplit]
      simp [List.map_append]
    have hnd2 : (((p0 :: ps).take k ++ (j, xs) :: rest).map Prod.fst).Nodup := by
      rw [hkeys]
      exact hnd
    have hj_take : j ∉ ((p0 :: ps).take k).map Prod.fst := by
      rw [hsplit] at hnd
      simp only [List.map_append, List.map_cons, List.nodup_append, List.nodup_cons] at hnd
      exact fun hm => hnd.2.2 hm (by simp)
    rw [mergeGo_eq_yield sched step p0 ps j x xs rest h1]
    rw [List.filter_cons]
    by_cases hij : j = i
    · subst hij
      simp only [decide_eq_true_eq, eq_self_iff_true, if_true]
      rw [List.map_cons, ih hnd2]
      rw [olookup_append, olookup_eq_none j _ hj_take]
      conv_rhs => rw [hsplit]
      rw [olookup_append, olookup_eq_none j _ hj_take]
      simp [olookup]
    · simp only [decide_eq_true_eq, if_neg hij]
      rw [ih hnd2]
      rw [olookup_append]
      conv_rhs => rw [hsplit]
      rw [olookup_append]
      have h5 : olookup i ((j, xs) :: rest) = olookup i rest := by
        simp [olookup, hij]
      have h6 : olookup i ((j, x :: xs) :: rest) = olookup i rest := by
        simp [olookup, hij]
      rw [h5, h6]

theorem mergeGo_length {α : Type} (sched : Nat → Nat) (step : Nat)
    (pending : List (Nat × List α)) :
    (mergeGo sched step pending).length =
      (pending.map (fun p => p.2.length)).sum := by
  induction step, pending using mergeGo.induct sched with
  | case1 step =>
    rw [mergeGo.eq_def]
    simp
  | case2 step p0 ps k h =>
    have hk : k < (p0 :: ps).length := Nat.mod_lt _ (by simp)
    rw [List.drop_eq_nil_iff] at h
    omega
  | case3 step p0 ps k j rest h1 h2 ih =>
    clear h2
    have hsplit : p0 :: ps = (p0 :: ps).take k ++ (j, ([] : List α)) :: rest := by
      conv_lhs => rw [← List.take_append_drop k (p0 :: ps)]
      rw [h1]
    rw [mergeGo_eq_erase sched step p0 ps j rest h1, ih]
    conv_rhs => rw [hsplit]
    simp [List.map_append, List.sum_append]
  | case4 step p0 ps k j rest x xs h1 h2 ih =>
    clear h2
    have hsplit : p0 :: ps = (p0 :: ps).take k ++ (j, x :: xs) :: rest := by
      conv_lhs => rw [← List.take_append_drop k (p0 :: ps)]
      rw [h1]
    rw [mergeGo_eq_yield sched step p0 ps j x xs rest h1]
    rw [List.length_cons, ih]
    conv_rhs => rw [hsplit]
    simp [List.map_append, List.sum_append]
    omega

theorem olookup_enumFrom {α : Type} (l : List α) (n i : Nat) :
    olookup i (List.enumFrom n l) = if n ≤ i then l[i - n]? else none := by
  induction l generalizing n with
  | nil => simp [olookup, List.enumFrom]
  | cons x xs ih =>
    simp only [List.enumFrom, olookup]
    by_cases h : n = i
    · subst h
      simp
    · rw [if_neg h, ih]
      by_cases h2 : n ≤ i
      · have h3 : n + 1 ≤ i := by omega
        rw [if_pos h3, if_pos h2]
        have h4 : i - n = (i - (n + 1)) + 1 := by omega
        rw [h4]
        simp
      · rw [if_neg (by omega), if_neg h2]

theorem olookup_enum {α : Type} (l : List α) (i : Nat) :
    olookup i l.enum = l[i]? := by
  rw [show l.enum = List.enumFrom 0 l from rfl, olookup_enumFrom]
  simp

theorem map_snd_enumFrom {α β : Type} (f : α → β) (l : List α) (n : Nat) :
    (List.enumFrom n l).map (fun p => f p.2) = l.map f := by
  induction l generalizing n with
  | nil => rfl
  | cons x xs ih => simp [List.enumFrom, ih]

/-- C9: for every race-resolution schedule, `mergeStreams` yields each
source's items exactly once and in that source's own order — the
output items tagged with source index `i` are exactly source `i`'s
list — and the run completes exactly when every source is exhausted:
the output length is the total number of items.  The cross-source
interleaving is whatever the schedule dictates, matching the race
semantics. -/
theorem mergeStreams_yields_each_source_once (α : Type) (sched : Nat → Nat)
    (streams : List (List α)) :
    (∀ i : Nat, ((mergeStreams sched streams).filter (fun p => p.1 = i)).map Prod.snd =
      (streams[i]?).getD []) ∧
    (mergeStreams sched streams).length = (streams.map List.length).sum := by
  constructor
  · intro i
    rw [mergeStreams, mergeGo_lookup sched 0 streams.enum
      (List.nodup_enum_map_fst streams) i, olookup_enum]
  · rw [mergeStreams, mergeGo_length,
      show streams.enum = List.enumFrom 0 streams from rfl,
      show (List.enumFrom 0 streams).map (fun p => p.2.length) =
        streams.map List.length from map_snd_enumFrom List.length streams 0]

end DevMind
